import Mathlib

/-!
Shallow embedding of the rank index and word-count modules of the
progress-report bot (src/rank.rs and src/word_count.rs), together with
proofs about the claims of its specification.

Container modelling: `BTreeSet<Rank>` is a list kept sorted by
`minimum_word_count` (Rank equality and order are defined solely on the
count), `HashSet<RankHash>` is a list keyed by `rank_id` (RankHash equality
ignores the count).  Both Rust sets never hold two equal elements, so the
removal operations below, which drop every key-equal element, coincide with
the single-element removal the Rust sets perform on every state the code can
build.  A Rust panic (guild-id mismatch, `expect`/`unwrap` failure) is an
explicit outcome of the embedded function.
-/

/-- `RankId` (rank.rs): the `(guild_id, role_id)` key of a rank. -/
structure RankId where
  guild_id : Nat
  role_id : Nat
deriving DecidableEq

/-- `Rank` (rank.rs): a rank id plus the minimum word count of the tier. -/
structure Rank where
  rank_id : RankId
  minimum_word_count : Nat
deriving DecidableEq

/-- `BTreeSet::contains` under the count-only `Ord` of `Rank`. -/
def btreeContains (l : List Rank) (r : Rank) : Bool :=
  l.any (fun x => x.minimum_word_count == r.minimum_word_count)

/-- `BTreeSet::get` under the count-only `Ord` of `Rank`. -/
def btreeGet (l : List Rank) (r : Rank) : Option Rank :=
  l.find? (fun x => x.minimum_word_count == r.minimum_word_count)

/-- `BTreeSet::insert`: sorted insertion; when a count-equal element is
already present the set keeps the existing element. -/
def btreeInsert : List Rank → Rank → List Rank
  | [], r => [r]
  | x :: xs, r =>
    if r.minimum_word_count < x.minimum_word_count then r :: x :: xs
    else if r.minimum_word_count == x.minimum_word_count then x :: xs
    else x :: btreeInsert xs r

/-- `BTreeSet::remove`: drops the count-equal element. -/
def btreeRemove (l : List Rank) (r : Rank) : List Rank :=
  l.filter (fun x => !(x.minimum_word_count == r.minimum_word_count))

/-- `HashSet::contains` under the id-only equality of `RankHash`. -/
def hashContains (l : List Rank) (r : Rank) : Bool :=
  l.any (fun x => x.rank_id == r.rank_id)

/-- `HashSet::get` under the id-only equality of `RankHash`. -/
def hashGet (l : List Rank) (r : Rank) : Option Rank :=
  l.find? (fun x => x.rank_id == r.rank_id)

/-- `HashSet::replace`: inserts `r`, replacing the id-equal element if any. -/
def hashReplace (l : List Rank) (r : Rank) : List Rank :=
  r :: l.filter (fun x => !(x.rank_id == r.rank_id))

/-- `HashSet::remove` by rank id. -/
def hashRemove (l : List Rank) (r : Rank) : List Rank :=
  l.filter (fun x => !(x.rank_id == r.rank_id))

/-- `HashSet::insert`: when an id-equal element is present the set is unchanged. -/
def hashInsert (l : List Rank) (r : Rank) : List Rank :=
  if hashContains l r then l else r :: l

/-- `RankList` (rank.rs): guild id (unset until a rank is added), the
identity index `rank_set`, the ordered index `rank_order`, and the
deferred-delete log `pending_removals`. -/
structure RankList where
  guild_id : Option Nat
  rank_set : List Rank
  rank_order : List Rank
  pending_removals : List Rank
deriving DecidableEq

/-- `AddRankError` (rank.rs): the conflicting rank is reported back. -/
inductive AddRankError where
  | RankExistsWithWordCount (old : Rank)
deriving DecidableEq

/-- Outcome of `add_rank`.  `ok`/`conflict` carry the state the `&mut self`
holds at the return point; `fatal` is the guild-mismatch panic. -/
inductive AddOutcome where
  | ok (l : RankList)
  | conflict (old : Rank) (l : RankList)
  | fatal
deriving DecidableEq

/-- Step of `add_rank` at rank.rs 238-244: when the identity is already
assigned, drop its old entry from the ordered index. -/
def add_rank_replace_old (self : RankList) (rank : Rank) : RankList :=
  match hashGet self.rank_set rank with
  | some old_rank => { self with rank_order := btreeRemove self.rank_order old_rank }
  | none => self

/-- Step of `add_rank` at rank.rs 246-247: put the rank into both indexes. -/
def add_rank_insert (self : RankList) (rank : Rank) : RankList :=
  { self with
    rank_set := hashReplace self.rank_set rank,
    rank_order := btreeInsert self.rank_order rank }

/-- Step of `add_rank` at rank.rs 249-253: cancel a pending removal of the
re-added identity. -/
def add_rank_unpend (self : RankList) (rank : Rank) : RankList :=
  if hashContains self.pending_removals rank then
    { self with pending_removals := hashRemove self.pending_removals rank }
  else self

/-- Body of `RankList::add_rank` after the guild check (rank.rs 230-255):
conflict on any count-equal active rank, otherwise replace-by-identity,
insert, and cancel a pending removal. -/
def add_rank_checked (self : RankList) (rank : Rank) : AddOutcome :=
  match btreeGet self.rank_order rank with
  | some old_rank => .conflict old_rank self
  | none => .ok (add_rank_unpend (add_rank_insert (add_rank_replace_old self rank) rank) rank)

/-- `RankList::add_rank` (rank.rs 216-256): adopt or check the guild id,
then run the body. -/
def add_rank (self : RankList) (rank : Rank) : AddOutcome :=
  match self.guild_id with
  | some g =>
    if g == rank.rank_id.guild_id then add_rank_checked self rank else .fatal
  | none => add_rank_checked { self with guild_id := some rank.rank_id.guild_id } rank

/-- `RankList::add_ranks` (rank.rs 258-264): each `add_rank` result is
dropped; only the guild-mismatch panic (`none`) escapes. -/
def add_ranks (self : RankList) : List Rank → Option RankList
  | [] => some self
  | r :: rest =>
    match add_rank self r with
    | .ok l => add_ranks l rest
    | .conflict _ l => add_ranks l rest
    | .fatal => none

/-- `RankList::remove_rank` (rank.rs 266-278): take by rank id; when found,
drop the taken rank from the ordered index and log it for deletion. -/
def remove_rank (self : RankList) (rank : Rank) : RankList :=
  match hashGet self.rank_set rank with
  | some taken =>
    { self with
      rank_set := hashRemove self.rank_set rank,
      rank_order := btreeRemove self.rank_order taken,
      pending_removals := hashInsert self.pending_removals taken }
  | none => self

/-- The loop of `get_rank_for_word_count`: stop at the first rank above the
word count, otherwise remember the rank just visited. -/
def rank_scan : List Rank → Rank → Nat → Rank
  | [], highest, _ => highest
  | r :: rest, highest, word_count =>
    if word_count < r.minimum_word_count then highest
    else rank_scan rest r word_count

/-- `RankList::get_rank_for_word_count` (rank.rs 281-297); `none` models the
`expect` panic on an index with no ranks. -/
def get_rank_for_word_count (self : RankList) (word_count : Nat) : Option Rank :=
  match self.rank_order with
  | [] => none
  | first :: _ => some (rank_scan self.rank_order first word_count)

/-- `impl From<Rank> for RankList` (rank.rs 348-363). -/
def rankListOfRank (value : Rank) : RankList :=
  { guild_id := some value.rank_id.guild_id
    rank_set := [value]
    rank_order := [value]
    pending_removals := [] }

/-- The empty `RankList` the slice conversion builds for an empty slice. -/
def emptyRankList : RankList :=
  { guild_id := none, rank_set := [], rank_order := [], pending_removals := [] }

/-- Outcome of `TryFrom<&[Rank]>`: built list, propagated conflict, or panic. -/
inductive TryFromOutcome where
  | ok (l : RankList)
  | err (e : AddRankError)
  | fatal
deriving DecidableEq

/-- The loop of `TryFrom<&[Rank]>`: add each remaining rank, propagating the
first conflict with `?`. -/
def addAllRanks (self : RankList) : List Rank → TryFromOutcome
  | [] => .ok self
  | r :: rest =>
    match add_rank self r with
    | .ok l => addAllRanks l rest
    | .conflict old _ => .err (.RankExistsWithWordCount old)
    | .fatal => .fatal

/-- `impl TryFrom<&[Rank]> for RankList` (rank.rs 365-395): seed from the
first rank, then add the rest. -/
def rankListOfRanks : List Rank → TryFromOutcome
  | [] => .ok emptyRankList
  | first :: rest => addAllRanks (rankListOfRank first) rest

/-- The persistent store: the `rank_table` rows, which are unique on the
`(guild_id, role_id)` key, as the map from that key to the stored minimum
word count (`none` = no row for the key). -/
abbrev Store := RankId → Option Nat

/-- `INSERT ... ON CONFLICT (guild_id, role_id) DO UPDATE SET
minimum_word_count` (rank.rs 322): the row of the key now holds `count`,
whether or not it existed. -/
def upsertRow (store : Store) (key : RankId) (count : Nat) : Store :=
  fun k => if k = key then some count else store k

/-- `DELETE FROM rank_table WHERE guild_id = $1 AND role_id = $2`
(rank.rs 334): the row of the key is gone afterwards. -/
def deleteRow (store : Store) (key : RankId) : Store :=
  fun k => if k = key then none else store k

/-- One statement issued by `RankList::save`. -/
inductive DbOp where
  | upsertOp (key : RankId) (count : Nat)
  | deleteOp (key : RankId)
deriving DecidableEq

/-- Effect of one save statement on the store. -/
def applyDbOp (store : Store) : DbOp → Store
  | .upsertOp key count => upsertRow store key count
  | .deleteOp key => deleteRow store key

/-- The statements `RankList::save` issues, in order (rank.rs 314-340):
an upsert per active rank, iterating the ordered index, then a delete per
pending removal. -/
def save_ops (self : RankList) : List DbOp :=
  self.rank_order.map (fun r => .upsertOp r.rank_id r.minimum_word_count)
    ++ self.pending_removals.map (fun r => .deleteOp r.rank_id)

/-- The stored state after a fully successful `RankList::save`. -/
def save (self : RankList) (store : Store) : Store :=
  (save_ops self).foldl applyDbOp store

/-- The row a key holds in the store, if any. -/
def lookupRow (store : Store) (key : RankId) : Option Nat :=
  store key

/-- Whether a save statement is a delete. -/
def DbOp.isDelete : DbOp → Bool
  | .upsertOp _ _ => false
  | .deleteOp _ => true

/-- `WordCountArgument` (word_count.rs): a relative delta (i32) or a total (u32). -/
inductive WordCountArgument where
  | Relative (x : Int)
  | Total (x : Nat)
deriving DecidableEq

def U32_MAX : Nat := 4294967295

def I32_MAX : Nat := 2147483647

/-- Value of a digit string: `none` when empty or when a non-digit appears. -/
def digitsToNat? (cs : List Char) : Option Nat :=
  if cs.isEmpty then none
  else cs.foldl (fun acc c =>
    acc.bind (fun n => if c.isDigit then some (n * 10 + (c.toNat - 48)) else none)) (some 0)

/-- Rust `u32::from_str`: an optional leading plus sign, then digits, and the
value must fit in u32 (overflow is a parse error). -/
def parseU32 (cs : List Char) : Option Nat :=
  let digits :=
    match cs with
    | '+' :: rest => rest
    | _ => cs
  match digitsToNat? digits with
  | some n => if n ≤ U32_MAX then some n else none
  | none => none

/-- Outcome of `WordCountArgument::from_str`: parsed value, format error
(the `?` on `parse`), or the `try_into().unwrap()` panic. -/
inductive ParseOutcome where
  | ok (w : WordCountArgument)
  | formatError
  | fatal
deriving DecidableEq

/-- `WordCountArgument::from_str` (word_count.rs 19-39): a leading `+`/`-`
marks the value relative and is cut off; commas are filtered from the
remainder; the remainder is parsed as u32; a relative value is converted to
i32 with `try_into().unwrap()`, which panics above `i32::MAX`. -/
def from_str (s : List Char) : ParseOutcome :=
  match s with
  | [] =>
    match parseU32 (List.filter (fun x => !(x == ',')) []) with
    | some n => .ok (.Total n)
    | none => .formatError
  | c :: rest =>
    if c == '+' || c == '-' then
      match parseU32 (List.filter (fun x => !(x == ',')) rest) with
      | some n =>
        if n ≤ I32_MAX then
          .ok (.Relative (if c == '+' then (n : Int) else -(n : Int)))
        else .fatal
      | none => .formatError
    else
      match parseU32 (List.filter (fun x => !(x == ',')) (c :: rest)) with
      | some n => .ok (.Total n)
      | none => .formatError

/-- The `current_word_count as i32` cast: two's-complement reinterpretation
of a u32 value. -/
def u32AsI32 (n : Nat) : Int :=
  if n % 4294967296 < 2147483648 then ((n % 4294967296 : Nat) : Int)
  else ((n % 4294967296 : Nat) : Int) - 4294967296

/-- Two's-complement wrap of the i32 addition (release overflow semantics). -/
def wrapI32 (z : Int) : Int := (z + 2147483648) % 4294967296 - 2147483648

/-- `WordCountArgument::convert_to_total` (word_count.rs 65-74): a relative
delta is added to the i32 reinterpretation of the current total and clamped
at zero; a total replaces the current total. -/
def convert_to_total (w : WordCountArgument) (current_word_count : Nat) : Nat :=
  match w with
  | .Relative x => (max (wrapI32 (x + u32AsI32 current_word_count)) 0).toNat
  | .Total x => x

/-- Whether the guild check of `add_rank` passes for `rank` on this list. -/
def guild_matches (l : RankList) (r : Rank) : Bool :=
  match l.guild_id with
  | some g => g == r.rank_id.guild_id
  | none => true

/-- The order relation `Ord for Rank` induces on ranks: strictly increasing
minimum word count. -/
def countLt (a b : Rank) : Prop := a.minimum_word_count < b.minimum_word_count

/-- Distinctness of rank identities (the `RankHash` key). -/
def idNe (a b : Rank) : Prop := a.rank_id ≠ b.rank_id

instance : DecidableRel countLt := fun a b =>
  inferInstanceAs (Decidable (a.minimum_word_count < b.minimum_word_count))

instance : DecidableRel idNe := fun a b =>
  inferInstanceAs (Decidable (a.rank_id ≠ b.rank_id))

/-- The representation invariant of `RankList`: the ordered index is sorted
with pairwise-distinct counts, the identity index has pairwise-distinct
identities, both indexes hold the same ranks, pending removals have distinct
identities and are disjoint from the active set, and every held rank belongs
to the recorded guild. -/
structure RankInv (l : RankList) : Prop where
  sorted : l.rank_order.Pairwise countLt
  set_ids : l.rank_set.Pairwise idNe
  perm : l.rank_set.Perm l.rank_order
  pend_ids : l.pending_removals.Pairwise idNe
  disj : ∀ r ∈ l.rank_set, ∀ p ∈ l.pending_removals, r.rank_id ≠ p.rank_id
  guild_set : ∀ r ∈ l.rank_set, l.guild_id = some r.rank_id.guild_id
  guild_pend : ∀ p ∈ l.pending_removals, l.guild_id = some p.rank_id.guild_id

/-- Disjointness of the active identity index and the pending-removal set:
no identity is in both at once. -/
def pendingDisjoint (l : RankList) : Prop :=
  ∀ r ∈ l.rank_set, ∀ p ∈ l.pending_removals, r.rank_id ≠ p.rank_id

/-- The rank lists reachable through the constructors and the mutating
operations of the module. -/
inductive Reachable : RankList → Prop where
  | empty : Reachable emptyRankList
  | ofRank (r : Rank) : Reachable (rankListOfRank r)
  | ofRanks (ranks : List Rank) (l : RankList) :
      rankListOfRanks ranks = .ok l → Reachable l
  | add_ok (l l' : RankList) (r : Rank) :
      Reachable l → add_rank l r = .ok l' → Reachable l'
  | add_conflict (l l' : RankList) (r old : Rank) :
      Reachable l → add_rank l r = .conflict old l' → Reachable l'
  | remove (l : RankList) (r : Rank) : Reachable l → Reachable (remove_rank l r)

/-- Whether the input has the leading sign that marks a relative count. -/
def signChar (s : List Char) : Bool :=
  match s with
  | c :: _ => c == '+' || c == '-'
  | [] => false

/-- The input after cutting a leading sign, if present. -/
def afterSign (s : List Char) : List Char :=
  match s with
  | c :: rest => if c == '+' || c == '-' then rest else s
  | [] => []

/-- The text handed to the numeric parser: the input after the sign, with
commas stripped. -/
def strippedRemainder (s : List Char) : List Char :=
  List.filter (fun x => !(x == ',')) (afterSign s)

/-! ### Lemmas about the container models -/

theorem mem_btreeInsert {l : List Rank} {r x : Rank} (h : x ∈ btreeInsert l r) :
    x = r ∨ x ∈ l := by
  induction l with
  | nil => simpa [btreeInsert] using h
  | cons y ys ih =>
    by_cases h1 : r.minimum_word_count < y.minimum_word_count
    · rw [btreeInsert, if_pos h1] at h
      rcases List.mem_cons.mp h with rfl | h2
      · exact Or.inl rfl
      · exact Or.inr h2
    · by_cases h2 : (r.minimum_word_count == y.minimum_word_count) = true
      · rw [btreeInsert, if_neg h1, if_pos h2] at h
        exact Or.inr h
      · rw [btreeInsert, if_neg h1, if_neg h2] at h
        rcases List.mem_cons.mp h with rfl | h3
        · exact Or.inr (List.mem_cons_self _ _)
        · rcases ih h3 with h4 | h4
          · exact Or.inl h4
          · exact Or.inr (List.mem_cons_of_mem _ h4)

theorem idNe_symm : Symmetric idNe := fun _ _ h => Ne.symm h

theorem countNe_symm : Symmetric (fun x y : Rank => x.minimum_word_count ≠ y.minimum_word_count) :=
  fun _ _ h => Ne.symm h

theorem btreeInsert_perm {l : List Rank} {r : Rank}
    (h : ∀ x ∈ l, x.minimum_word_count ≠ r.minimum_word_count) :
    (btreeInsert l r).Perm (r :: l) := by
  induction l with
  | nil => simp [btreeInsert]
  | cons y ys ih =>
    by_cases h1 : r.minimum_word_count < y.minimum_word_count
    · rw [btreeInsert, if_pos h1]
    · have hne : ¬ (r.minimum_word_count == y.minimum_word_count) = true := by
        simp only [beq_iff_eq]
        exact fun hh => (h y (List.mem_cons_self y ys)) hh.symm
      rw [btreeInsert, if_neg h1, if_neg hne]
      exact ((ih (fun x hx => h x (List.mem_cons_of_mem _ hx))).cons y).trans
        (List.Perm.swap r y ys)

theorem btreeInsert_sorted {l : List Rank} {r : Rank} (hs : l.Pairwise countLt) :
    (btreeInsert l r).Pairwise countLt := by
  induction l with
  | nil => simp [btreeInsert]
  | cons y ys ih =>
    rcases List.pairwise_cons.mp hs with ⟨hy, hys⟩
    by_cases h1 : r.minimum_word_count < y.minimum_word_count
    · rw [btreeInsert, if_pos h1]
      refine List.pairwise_cons.mpr ⟨?_, hs⟩
      intro x hx
      rcases List.mem_cons.mp hx with h2 | h2
      · show r.minimum_word_count < x.minimum_word_count
        rw [h2]; exact h1
      · show r.minimum_word_count < x.minimum_word_count
        exact Nat.lt_trans h1 (hy x h2)
    · by_cases h2 : (r.minimum_word_count == y.minimum_word_count) = true
      · rw [btreeInsert, if_neg h1, if_pos h2]; exact hs
      · rw [btreeInsert, if_neg h1, if_neg h2]
        refine List.pairwise_cons.mpr ⟨?_, ih hys⟩
        intro x hx
        rcases mem_btreeInsert hx with h3 | h3
        · show y.minimum_word_count < x.minimum_word_count
          have hne : ¬ r.minimum_word_count = y.minimum_word_count := by
            simpa using h2
          rw [h3]
          omega
        · exact hy x h3

theorem hashGet_eq_some {l : List Rank} {r a : Rank} (h : hashGet l r = some a) :
    a ∈ l ∧ a.rank_id = r.rank_id := by
  refine ⟨List.mem_of_find?_eq_some h, ?_⟩
  simpa using List.find?_some h

theorem hashGet_eq_none {l : List Rank} {r : Rank} (h : hashGet l r = none) :
    ∀ x ∈ l, x.rank_id ≠ r.rank_id := by
  intro x hx
  simpa using List.find?_eq_none.mp h x hx

theorem hashGet_of_mem {l : List Rank} {r a : Rank} (ha : a ∈ l)
    (hid : a.rank_id = r.rank_id) : ∃ b, hashGet l r = some b := by
  cases hfind : hashGet l r with
  | some b => exact ⟨b, rfl⟩
  | none => exact absurd hid (hashGet_eq_none hfind a ha)

theorem btreeGet_eq_some {l : List Rank} {r a : Rank} (h : btreeGet l r = some a) :
    a ∈ l ∧ a.minimum_word_count = r.minimum_word_count := by
  refine ⟨List.mem_of_find?_eq_some h, ?_⟩
  simpa using List.find?_some h

theorem btreeGet_eq_none {l : List Rank} {r : Rank} (h : btreeGet l r = none) :
    ∀ x ∈ l, x.minimum_word_count ≠ r.minimum_word_count := by
  intro x hx
  simpa using List.find?_eq_none.mp h x hx

theorem btreeGet_of_mem {l : List Rank} {r a : Rank} (ha : a ∈ l)
    (hc : a.minimum_word_count = r.minimum_word_count) : ∃ b, btreeGet l r = some b := by
  cases hfind : btreeGet l r with
  | some b => exact ⟨b, rfl⟩
  | none => exact absurd hc (btreeGet_eq_none hfind a ha)

theorem unique_of_pairwise_idNe {l : List Rank} (h : l.Pairwise idNe)
    {a b : Rank} (ha : a ∈ l) (hb : b ∈ l) (hid : a.rank_id = b.rank_id) : a = b := by
  by_contra hne
  exact (List.Pairwise.forall idNe_symm h ha hb hne) hid

theorem unique_of_sorted_count {l : List Rank} (h : l.Pairwise countLt)
    {a b : Rank} (ha : a ∈ l) (hb : b ∈ l)
    (hc : a.minimum_word_count = b.minimum_word_count) : a = b := by
  have hne : l.Pairwise (fun x y : Rank => x.minimum_word_count ≠ y.minimum_word_count) :=
    h.imp (fun hh => Nat.ne_of_lt hh)
  by_contra hab
  exact (List.Pairwise.forall countNe_symm hne ha hb hab) hc

theorem RankInv.order_ids {l : RankList} (h : RankInv l) : l.rank_order.Pairwise idNe :=
  (h.perm.pairwise_iff (fun hab => idNe_symm hab)).mp h.set_ids

theorem RankInv.set_counts {l : RankList} (h : RankInv l) :
    l.rank_set.Pairwise (fun x y : Rank => x.minimum_word_count ≠ y.minimum_word_count) :=
  (h.perm.pairwise_iff (fun hab => countNe_symm hab)).mpr
    (h.sorted.imp (fun hh => Nat.ne_of_lt hh))

/-! ### The shape of the add_rank steps -/

theorem replace_old_rank_set (m : RankList) (r : Rank) :
    (add_rank_replace_old m r).rank_set = m.rank_set := by
  unfold add_rank_replace_old; cases hashGet m.rank_set r <;> rfl

theorem replace_old_pending (m : RankList) (r : Rank) :
    (add_rank_replace_old m r).pending_removals = m.pending_removals := by
  unfold add_rank_replace_old; cases hashGet m.rank_set r <;> rfl

theorem replace_old_guild (m : RankList) (r : Rank) :
    (add_rank_replace_old m r).guild_id = m.guild_id := by
  unfold add_rank_replace_old; cases hashGet m.rank_set r <;> rfl

theorem replace_old_rank_order {m : RankList} {r : Rank}
    (hperm : m.rank_set.Perm m.rank_order) (hids : m.rank_set.Pairwise idNe)
    (hsorted : m.rank_order.Pairwise countLt) :
    (add_rank_replace_old m r).rank_order
      = m.rank_order.filter (fun x => !(x.rank_id == r.rank_id)) := by
  unfold add_rank_replace_old
  cases hget : hashGet m.rank_set r with
  | none =>
    symm
    apply List.filter_eq_self.mpr
    intro a ha
    have : a.rank_id ≠ r.rank_id :=
      hashGet_eq_none hget a (hperm.mem_iff.mpr ha)
    simpa using this
  | some old =>
    obtain ⟨hmem, hid⟩ := hashGet_eq_some hget
    have hmemO : old ∈ m.rank_order := hperm.mem_iff.mp hmem
    show btreeRemove m.rank_order old = _
    unfold btreeRemove
    apply List.filter_congr
    intro x hx
    have hiff : x.minimum_word_count = old.minimum_word_count ↔ x.rank_id = r.rank_id := by
      constructor
      · intro hc
        have : x = old := unique_of_sorted_count hsorted hx hmemO hc
        rw [this, hid]
      · intro hi
        have hxS : x ∈ m.rank_set := hperm.mem_iff.mpr hx
        have : x = old := unique_of_pairwise_idNe hids hxS hmem (by rw [hi, hid])
        rw [this]
    by_cases hc : x.minimum_word_count = old.minimum_word_count
    · have hi := hiff.mp hc
      simp [hc, hi]
    · have hi : ¬ x.rank_id = r.rank_id := fun hh => hc (hiff.mpr hh)
      simp [hc, hi]

theorem unpend_pending (m : RankList) (r : Rank) :
    (add_rank_unpend m r).pending_removals
      = m.pending_removals.filter (fun x => !(x.rank_id == r.rank_id)) := by
  unfold add_rank_unpend
  by_cases hc : hashContains m.pending_removals r = true
  · rw [if_pos hc]; rfl
  · rw [if_neg hc]
    symm
    apply List.filter_eq_self.mpr
    intro a ha
    unfold hashContains at hc
    have : ¬ (a.rank_id == r.rank_id) = true := by
      intro hh
      exact hc (List.any_eq_true.mpr ⟨a, ha, hh⟩)
    simpa using this

theorem unpend_rank_set (m : RankList) (r : Rank) :
    (add_rank_unpend m r).rank_set = m.rank_set := by
  unfold add_rank_unpend; split <;> rfl

theorem unpend_rank_order (m : RankList) (r : Rank) :
    (add_rank_unpend m r).rank_order = m.rank_order := by
  unfold add_rank_unpend; split <;> rfl

theorem unpend_guild (m : RankList) (r : Rank) :
    (add_rank_unpend m r).guild_id = m.guild_id := by
  unfold add_rank_unpend; split <;> rfl

/-! ### Characterization of add_rank -/

theorem add_rank_eq_checked {l : RankList} {r : Rank} {out : AddOutcome}
    (hInv : RankInv l) (h : add_rank l r = out) (hout : out ≠ AddOutcome.fatal) :
    ∃ m, RankInv m ∧ add_rank_checked m r = out ∧ m.rank_set = l.rank_set ∧
      m.rank_order = l.rank_order ∧ m.pending_removals = l.pending_removals ∧
      m.guild_id = some r.rank_id.guild_id ∧
      (m = l ∨ l.guild_id = none) := by
  unfold add_rank at h
  cases hg : l.guild_id with
  | none =>
    rw [hg] at h
    refine ⟨{ l with guild_id := some r.rank_id.guild_id }, ?_, h, rfl, rfl, rfl, rfl, Or.inr rfl⟩
    refine ⟨hInv.sorted, hInv.set_ids, hInv.perm, hInv.pend_ids, hInv.disj, ?_, ?_⟩
    · intro x hx
      have := hInv.guild_set x hx
      rw [hg] at this
      exact Option.noConfusion this
    · intro p hp
      have := hInv.guild_pend p hp
      rw [hg] at this
      exact Option.noConfusion this
  | some g =>
    rw [hg] at h
    replace h : (if (g == r.rank_id.guild_id) = true then add_rank_checked l r
        else AddOutcome.fatal) = out := h
    by_cases hgr : (g == r.rank_id.guild_id) = true
    · rw [if_pos hgr] at h
      have hgeq : g = r.rank_id.guild_id := by simpa using hgr
      exact ⟨l, hInv, h, rfl, rfl, rfl, by rw [hg, hgeq], Or.inl rfl⟩
    · rw [if_neg hgr] at h
      exact absurd h.symm hout

theorem add_rank_conflict_spec {l l' : RankList} {r old : Rank} (hInv : RankInv l)
    (h : add_rank l r = AddOutcome.conflict old l') :
    l' = l ∧ old ∈ l.rank_order ∧ old.minimum_word_count = r.minimum_word_count ∧
      guild_matches l r = true := by
  obtain ⟨m, hmInv, hc, hset, horder, hpend, hguild, hcase⟩ :=
    add_rank_eq_checked hInv h (by intro hh; exact AddOutcome.noConfusion hh)
  unfold add_rank_checked at hc
  cases hget : btreeGet m.rank_order r with
  | none =>
    rw [hget] at hc
    exact AddOutcome.noConfusion hc
  | some o =>
    rw [hget] at hc
    injection hc with h1 h2
    obtain ⟨hmem, hcount⟩ := btreeGet_eq_some hget
    rw [horder] at hmem
    rcases hcase with rfl | hnone
    · exact ⟨h2.symm, h1 ▸ hmem, h1 ▸ hcount, by
        unfold guild_matches; rw [hguild]; simp⟩
    · exfalso
      have hmemS : o ∈ l.rank_set := hInv.perm.mem_iff.mpr hmem
      have := hInv.guild_set o hmemS
      rw [hnone] at this
      exact Option.noConfusion this

theorem add_rank_conflict_of_collision {l : RankList} {r : Rank} (hInv : RankInv l)
    (hg : guild_matches l r = true) {x : Rank} (hx : x ∈ l.rank_order)
    (hc : x.minimum_word_count = r.minimum_word_count) :
    ∃ old, add_rank l r = AddOutcome.conflict old l := by
  obtain ⟨b, hb⟩ := btreeGet_of_mem hx hc
  unfold add_rank
  cases hgl : l.guild_id with
  | some g =>
    have hgr : (g == r.rank_id.guild_id) = true := by
      unfold guild_matches at hg
      rw [hgl] at hg
      exact hg
    refine ⟨b, ?_⟩
    show (if (g == r.rank_id.guild_id) = true then add_rank_checked l r
        else AddOutcome.fatal) = AddOutcome.conflict b l
    rw [if_pos hgr]
    unfold add_rank_checked
    rw [hb]
  | none =>
    exfalso
    have := hInv.guild_set x (hInv.perm.mem_iff.mpr hx)
    rw [hgl] at this
    exact Option.noConfusion this

theorem add_rank_ok_spec {l l' : RankList} {r : Rank} (hInv : RankInv l)
    (h : add_rank l r = AddOutcome.ok l') :
    RankInv l' ∧
      l'.rank_set = r :: l.rank_set.filter (fun x => !(x.rank_id == r.rank_id)) ∧
      l'.pending_removals = l.pending_removals.filter (fun x => !(x.rank_id == r.rank_id)) ∧
      l'.guild_id = some r.rank_id.guild_id ∧
      (∀ x ∈ l.rank_order, x.minimum_word_count ≠ r.minimum_word_count) := by
  obtain ⟨m, hmInv, hc, hset, horder, hpend, hguild, _⟩ :=
    add_rank_eq_checked hInv h (by intro hh; exact AddOutcome.noConfusion hh)
  unfold add_rank_checked at hc
  cases hget : btreeGet m.rank_order r with
  | some o =>
    rw [hget] at hc
    exact AddOutcome.noConfusion hc
  | none =>
    rw [hget] at hc
    injection hc with h1
    have hNoC : ∀ x ∈ m.rank_order, x.minimum_word_count ≠ r.minimum_word_count :=
      btreeGet_eq_none hget
    -- shapes of the staged construction
    have hAorder : (add_rank_replace_old m r).rank_order
        = m.rank_order.filter (fun x => !(x.rank_id == r.rank_id)) :=
      replace_old_rank_order hmInv.perm hmInv.set_ids hmInv.sorted
    have hl'set : l'.rank_set = r :: m.rank_set.filter (fun x => !(x.rank_id == r.rank_id)) := by
      rw [← h1, unpend_rank_set]
      show hashReplace (add_rank_replace_old m r).rank_set r = _
      rw [replace_old_rank_set]
      rfl
    have hl'order : l'.rank_order
        = btreeInsert (m.rank_order.filter (fun x => !(x.rank_id == r.rank_id))) r := by
      rw [← h1, unpend_rank_order]
      show btreeInsert (add_rank_replace_old m r).rank_order r = _
      rw [hAorder]
    have hl'pend : l'.pending_removals
        = m.pending_removals.filter (fun x => !(x.rank_id == r.rank_id)) := by
      rw [← h1, unpend_pending]
      show (add_rank_insert (add_rank_replace_old m r) r).pending_removals.filter _ = _
      rw [show (add_rank_insert (add_rank_replace_old m r) r).pending_removals
          = (add_rank_replace_old m r).pending_removals from rfl, replace_old_pending]
    have hl'guild : l'.guild_id = some r.rank_id.guild_id := by
      rw [← h1, unpend_guild]
      show (add_rank_replace_old m r).guild_id = _
      rw [replace_old_guild, hguild]
    have hfNoC : ∀ x ∈ m.rank_order.filter (fun x => !(x.rank_id == r.rank_id)),
        x.minimum_word_count ≠ r.minimum_word_count := by
      intro x hxf
      exact hNoC x (List.mem_of_mem_filter hxf)
    have hOf : (btreeInsert (m.rank_order.filter (fun x => !(x.rank_id == r.rank_id))) r).Perm
        (r :: m.rank_order.filter (fun x => !(x.rank_id == r.rank_id))) :=
      btreeInsert_perm hfNoC
    refine ⟨?_, by rw [hl'set, hset], by rw [hl'pend, hpend], hl'guild, by rw [← horder]; exact hNoC⟩
    refine ⟨?_, ?_, ?_, ?_, ?_, ?_, ?_⟩
    · -- sorted
      rw [hl'order]
      exact btreeInsert_sorted (hmInv.sorted.sublist (List.filter_sublist _))
    · -- set ids pairwise
      rw [hl'set]
      refine List.pairwise_cons.mpr ⟨?_, hmInv.set_ids.sublist (List.filter_sublist _)⟩
      intro x hxf
      have hxm := List.mem_filter.mp hxf
      have hne : ¬ x.rank_id = r.rank_id := by simpa using hxm.right
      show r.rank_id ≠ x.rank_id
      exact fun hh => hne hh.symm
    · -- perm
      rw [hl'set, hl'order]
      exact (((hmInv.perm.filter _).cons r).trans hOf.symm)
    · -- pend ids
      rw [hl'pend]
      exact hmInv.pend_ids.sublist (List.filter_sublist _)
    · -- disj
      rw [hl'set, hl'pend]
      intro x hx p hp
      have hpm := List.mem_filter.mp hp
      rcases List.mem_cons.mp hx with rfl | hx2
      · have : ¬ p.rank_id = x.rank_id := by simpa using hpm.right
        exact fun hh => this hh.symm
      · have hxm := List.mem_filter.mp hx2
        exact hmInv.disj x hxm.left p hpm.left
    · -- guild_set
      rw [hl'set, hl'guild]
      intro x hx
      rcases List.mem_cons.mp hx with rfl | hx2
      · rfl
      · have hxm := List.mem_filter.mp hx2
        have := hmInv.guild_set x hxm.left
        rw [hguild] at this
        exact this
    · -- guild_pend
      rw [hl'pend, hl'guild]
      intro p hp
      have hpm := List.mem_filter.mp hp
      have := hmInv.guild_pend p hpm.left
      rw [hguild] at this
      exact this

/-! ### Invariant preservation -/

theorem remove_rank_inv {l : RankList} (hInv : RankInv l) (r : Rank) :
    RankInv (remove_rank l r) := by
  unfold remove_rank
  cases hget : hashGet l.rank_set r with
  | none => exact hInv
  | some taken =>
    obtain ⟨hmem, hid⟩ := hashGet_eq_some hget
    have hmemO : taken ∈ l.rank_order := hInv.perm.mem_iff.mp hmem
    have horder : btreeRemove l.rank_order taken
        = l.rank_order.filter (fun x => !(x.rank_id == r.rank_id)) := by
      unfold btreeRemove
      apply List.filter_congr
      intro x hx
      have hiff : x.minimum_word_count = taken.minimum_word_count ↔ x.rank_id = r.rank_id := by
        constructor
        · intro hc
          have : x = taken := unique_of_sorted_count hInv.sorted hx hmemO hc
          rw [this, hid]
        · intro hi
          have hxS : x ∈ l.rank_set := hInv.perm.mem_iff.mpr hx
          have : x = taken := unique_of_pairwise_idNe hInv.set_ids hxS hmem (by rw [hi, hid])
          rw [this]
      by_cases hc : x.minimum_word_count = taken.minimum_word_count
      · have hi := hiff.mp hc
        simp [hc, hi]
      · have hi : ¬ x.rank_id = r.rank_id := fun hh => hc (hiff.mpr hh)
        simp [hc, hi]
    refine ⟨?_, ?_, ?_, ?_, ?_, ?_, ?_⟩
    · show (btreeRemove l.rank_order taken).Pairwise countLt
      unfold btreeRemove
      exact hInv.sorted.sublist (List.filter_sublist _)
    · show (hashRemove l.rank_set r).Pairwise idNe
      unfold hashRemove
      exact hInv.set_ids.sublist (List.filter_sublist _)
    · show (hashRemove l.rank_set r).Perm (btreeRemove l.rank_order taken)
      rw [horder]
      unfold hashRemove
      exact hInv.perm.filter _
    · show (hashInsert l.pending_removals taken).Pairwise idNe
      unfold hashInsert
      split
      · exact hInv.pend_ids
      · refine List.pairwise_cons.mpr ⟨?_, hInv.pend_ids⟩
        intro p hp
        exact hInv.disj taken hmem p hp
    · show ∀ x ∈ hashRemove l.rank_set r, ∀ p ∈ hashInsert l.pending_removals taken,
        x.rank_id ≠ p.rank_id
      intro x hx p hp
      have hxm := List.mem_filter.mp hx
      unfold hashInsert at hp
      have hpmem : p = taken ∨ p ∈ l.pending_removals := by
        by_cases hcont : hashContains l.pending_removals taken = true
        · rw [if_pos hcont] at hp
          exact Or.inr hp
        · rw [if_neg hcont] at hp
          exact List.mem_cons.mp hp
      rcases hpmem with rfl | hp2
      · have hne : ¬ x.rank_id = r.rank_id := by simpa using hxm.right
        rw [hid]
        exact hne
      · exact hInv.disj x hxm.left p hp2
    · show ∀ x ∈ hashRemove l.rank_set r, l.guild_id = some x.rank_id.guild_id
      intro x hx
      exact hInv.guild_set x (List.mem_filter.mp hx).left
    · show ∀ p ∈ hashInsert l.pending_removals taken, l.guild_id = some p.rank_id.guild_id
      intro p hp
      unfold hashInsert at hp
      have hpmem : p = taken ∨ p ∈ l.pending_removals := by
        by_cases hcont : hashContains l.pending_removals taken = true
        · rw [if_pos hcont] at hp
          exact Or.inr hp
        · rw [if_neg hcont] at hp
          exact List.mem_cons.mp hp
      rcases hpmem with rfl | hp2
      · exact hInv.guild_set p hmem
      · exact hInv.guild_pend p hp2

theorem RankInv_empty : RankInv emptyRankList := by
  refine ⟨?_, ?_, ?_, ?_, ?_, ?_, ?_⟩
  · exact List.Pairwise.nil
  · exact List.Pairwise.nil
  · exact List.Perm.refl _
  · exact List.Pairwise.nil
  · intro x hx
    exact absurd hx (List.not_mem_nil x)
  · intro x hx
    exact absurd hx (List.not_mem_nil x)
  · intro p hp
    exact absurd hp (List.not_mem_nil p)

theorem RankInv_ofRank (r : Rank) : RankInv (rankListOfRank r) := by
  refine ⟨?_, ?_, ?_, ?_, ?_, ?_, ?_⟩
  · exact List.pairwise_singleton _ _
  · exact List.pairwise_singleton _ _
  · exact List.Perm.refl _
  · exact List.Pairwise.nil
  · intro x _ p hp
    exact absurd hp (List.not_mem_nil p)
  · intro x hx
    have : x = r := by simpa [rankListOfRank] using hx
    rw [this]
    rfl
  · intro p hp
    exact absurd hp (List.not_mem_nil p)

theorem addAllRanks_ok {rs : List Rank} :
    ∀ {l l' : RankList}, RankInv l → addAllRanks l rs = TryFromOutcome.ok l' →
      RankInv l' ∧ (l.rank_set ≠ [] → l'.rank_set ≠ []) := by
  induction rs with
  | nil =>
    intro l l' hInv h
    rw [addAllRanks] at h
    injection h with h1
    exact ⟨h1 ▸ hInv, fun hne => h1 ▸ hne⟩
  | cons r rest ih =>
    intro l l' hInv h
    rw [addAllRanks] at h
    split at h
    · next m heq =>
        obtain ⟨hmInv, hset, _, _, _⟩ := add_rank_ok_spec hInv heq
        obtain ⟨hInv', hne'⟩ := ih hmInv h
        refine ⟨hInv', fun _ => hne' ?_⟩
        rw [hset]
        exact List.cons_ne_nil _ _
    · exact TryFromOutcome.noConfusion h
    · exact TryFromOutcome.noConfusion h

theorem rankListOfRanks_ok {rs : List Rank} {l : RankList}
    (h : rankListOfRanks rs = TryFromOutcome.ok l) :
    RankInv l ∧ (rs ≠ [] → l.rank_set ≠ []) := by
  cases rs with
  | nil =>
    rw [rankListOfRanks] at h
    injection h with h1
    exact ⟨h1 ▸ RankInv_empty, fun hne => absurd rfl hne⟩
  | cons first rest =>
    rw [rankListOfRanks] at h
    obtain ⟨hInv', hne'⟩ := addAllRanks_ok (RankInv_ofRank first) h
    refine ⟨hInv', fun _ => hne' ?_⟩
    show (rankListOfRank first).rank_set ≠ []
    simp [rankListOfRank]

theorem Reachable_inv {l : RankList} (h : Reachable l) : RankInv l := by
  induction h with
  | empty => exact RankInv_empty
  | ofRank r => exact RankInv_ofRank r
  | ofRanks ranks l hok => exact (rankListOfRanks_ok hok).left
  | add_ok l l' r hr hadd ih => exact (add_rank_ok_spec ih hadd).left
  | add_conflict l l' r old hr hadd ih =>
    obtain ⟨rfl, _, _, _⟩ := add_rank_conflict_spec ih hadd
    exact ih
  | remove l r hr ih => exact remove_rank_inv ih r

/-! ### Threshold resolution -/

theorem rank_scan_spec :
    ∀ (L : List Rank) (acc : Rank) (wc : Nat), L.Pairwise countLt →
      ((∀ x ∈ L, wc < x.minimum_word_count) ∧ rank_scan L acc wc = acc)
      ∨ (rank_scan L acc wc ∈ L ∧ (rank_scan L acc wc).minimum_word_count ≤ wc ∧
          ∀ x ∈ L, x.minimum_word_count ≤ wc →
            x.minimum_word_count ≤ (rank_scan L acc wc).minimum_word_count) := by
  intro L
  induction L with
  | nil =>
    intro acc wc _
    exact Or.inl ⟨fun x hx => absurd hx (List.not_mem_nil x), rfl⟩
  | cons r rest ih =>
    intro acc wc hs
    rcases List.pairwise_cons.mp hs with ⟨hr, hrest⟩
    have hr' : ∀ a ∈ rest, r.minimum_word_count < a.minimum_word_count := hr
    by_cases h1 : wc < r.minimum_word_count
    · left
      constructor
      · intro x hx
        rcases List.mem_cons.mp hx with rfl | hx2
        · exact h1
        · exact Nat.lt_trans h1 (hr' x hx2)
      · rw [rank_scan, if_pos h1]
    · right
      rw [rank_scan, if_neg h1]
      rcases ih r wc hrest with ⟨hall, heq⟩ | ⟨hmem, hle, hmax⟩
      · rw [heq]
        refine ⟨List.mem_cons_self r rest, Nat.le_of_not_lt h1, ?_⟩
        intro x hx hxle
        rcases List.mem_cons.mp hx with rfl | hx2
        · exact Nat.le_refl _
        · exact absurd hxle (Nat.not_le_of_lt (hall x hx2))
      · refine ⟨List.mem_cons_of_mem r hmem, hle, ?_⟩
        intro x hx hxle
        rcases List.mem_cons.mp hx with rfl | hx2
        · exact Nat.le_of_lt (hr' _ hmem)
        · exact hmax x hx2 hxle

/-- Claim C1: for every index built from a non-empty sequence of ranks with
pairwise-distinct minimum counts, and for every count `c`, resolution
(`get_rank_for_word_count`) never fails and returns the rank of the index
with the greatest `minimum_word_count ≤ c`, or the smallest-count rank when
`c` is below every threshold. -/
theorem resolve_c1 (ranks : List Rank) (l : RankList) (c : Nat)
    (hne : ranks ≠ [])
    (hdist : ranks.Pairwise (fun a b : Rank => a.minimum_word_count ≠ b.minimum_word_count))
    (hok : rankListOfRanks ranks = TryFromOutcome.ok l) :
    ∃ res, get_rank_for_word_count l c = some res ∧ res ∈ l.rank_order ∧
      ((res.minimum_word_count ≤ c ∧
          ∀ x ∈ l.rank_order, x.minimum_word_count ≤ c →
            x.minimum_word_count ≤ res.minimum_word_count)
        ∨ ((∀ x ∈ l.rank_order, c < x.minimum_word_count) ∧
            ∀ x ∈ l.rank_order, res.minimum_word_count ≤ x.minimum_word_count)) := by
  obtain ⟨hInv, hne2⟩ := rankListOfRanks_ok hok
  have hsetne := hne2 hne
  have hordne : l.rank_order ≠ [] := by
    intro hh
    apply hsetne
    have hperm := hInv.perm
    rw [hh] at hperm
    exact List.Perm.eq_nil hperm
  cases horder : l.rank_order with
  | nil => exact absurd horder hordne
  | cons first rest =>
    have hs : (first :: rest).Pairwise countLt := horder ▸ hInv.sorted
    have hget : get_rank_for_word_count l c = some (rank_scan (first :: rest) first c) := by
      unfold get_rank_for_word_count
      rw [horder]
    rcases rank_scan_spec (first :: rest) first c hs with ⟨hall, heq⟩ | ⟨hmem, hle, hmax⟩
    · refine ⟨first, by rw [hget, heq], List.mem_cons_self _ _, Or.inr ⟨hall, ?_⟩⟩
      intro x hx
      rcases List.mem_cons.mp hx with rfl | hx2
      · exact Nat.le_refl _
      · exact Nat.le_of_lt ((List.pairwise_cons.mp hs).left x hx2)
    · exact ⟨rank_scan (first :: rest) first c, hget, hmem, Or.inl ⟨hle, hmax⟩⟩

/-- Witness for C1 at a concrete two-rank index and count 50. -/
theorem resolve_c1_witness :
    ∃ res, get_rank_for_word_count
        (RankList.mk (some 1) [Rank.mk (RankId.mk 1 2) 100, Rank.mk (RankId.mk 1 1) 0]
          [Rank.mk (RankId.mk 1 1) 0, Rank.mk (RankId.mk 1 2) 100] []) 50 = some res ∧
      res ∈ (RankList.mk (some 1) [Rank.mk (RankId.mk 1 2) 100, Rank.mk (RankId.mk 1 1) 0]
          [Rank.mk (RankId.mk 1 1) 0, Rank.mk (RankId.mk 1 2) 100] []).rank_order ∧
      ((res.minimum_word_count ≤ 50 ∧
          ∀ x ∈ (RankList.mk (some 1) [Rank.mk (RankId.mk 1 2) 100, Rank.mk (RankId.mk 1 1) 0]
              [Rank.mk (RankId.mk 1 1) 0, Rank.mk (RankId.mk 1 2) 100] []).rank_order,
            x.minimum_word_count ≤ 50 → x.minimum_word_count ≤ res.minimum_word_count)
        ∨ ((∀ x ∈ (RankList.mk (some 1) [Rank.mk (RankId.mk 1 2) 100, Rank.mk (RankId.mk 1 1) 0]
              [Rank.mk (RankId.mk 1 1) 0, Rank.mk (RankId.mk 1 2) 100] []).rank_order,
              50 < x.minimum_word_count) ∧
            ∀ x ∈ (RankList.mk (some 1) [Rank.mk (RankId.mk 1 2) 100, Rank.mk (RankId.mk 1 1) 0]
              [Rank.mk (RankId.mk 1 1) 0, Rank.mk (RankId.mk 1 2) 100] []).rank_order,
              res.minimum_word_count ≤ x.minimum_word_count)) :=
  resolve_c1 [Rank.mk (RankId.mk 1 1) 0, Rank.mk (RankId.mk 1 2) 100] _ 50
    (by decide) (by decide) (by decide)

/-! ### Conflict behavior of add_rank (claim C2) -/

theorem add_rank_fatal_guild {l : RankList} {r : Rank}
    (h : add_rank l r = AddOutcome.fatal) : guild_matches l r = false := by
  unfold add_rank at h
  cases hg : l.guild_id with
  | none =>
    rw [hg] at h
    replace h : add_rank_checked { l with guild_id := some r.rank_id.guild_id } r
        = AddOutcome.fatal := h
    unfold add_rank_checked at h
    cases hget : btreeGet ({ l with guild_id := some r.rank_id.guild_id } : RankList).rank_order r with
    | some o => rw [hget] at h; exact AddOutcome.noConfusion h
    | none => rw [hget] at h; exact AddOutcome.noConfusion h
  | some g =>
    rw [hg] at h
    replace h : (if (g == r.rank_id.guild_id) = true then add_rank_checked l r
        else AddOutcome.fatal) = AddOutcome.fatal := h
    by_cases hgr : (g == r.rank_id.guild_id) = true
    · rw [if_pos hgr] at h
      unfold add_rank_checked at h
      cases hget : btreeGet l.rank_order r with
      | some o => rw [hget] at h; exact AddOutcome.noConfusion h
      | none => rw [hget] at h; exact AddOutcome.noConfusion h
    · unfold guild_matches
      rw [hg]
      simpa using hgr

/-- Claim C2 counterexample: re-adding the very rank the index already holds
(same identity and same count) is rejected with a conflict, although no
active rank with a different identity shares the count; the claim predicts
acceptance here. -/
theorem add_rank_c2_counterexample :
    add_rank (rankListOfRank (Rank.mk (RankId.mk 1 1) 100)) (Rank.mk (RankId.mk 1 1) 100)
      = AddOutcome.conflict (Rank.mk (RankId.mk 1 1) 100)
          (rankListOfRank (Rank.mk (RankId.mk 1 1) 100))
    ∧ ∀ x ∈ (rankListOfRank (Rank.mk (RankId.mk 1 1) 100)).rank_set,
        x.rank_id = (Rank.mk (RankId.mk 1 1) 100).rank_id := by
  decide

/-- Claim C2 (amended): `add_rank` returns a conflict exactly when the guild
check passes and some active rank has the same minimum count — the identity
is not consulted, so even re-adding an identical rank conflicts; on a
conflict the index is returned unmodified, and the reported rank is the
count-equal active rank. -/
theorem add_rank_c2 (l : RankList) (r : Rank) (hInv : RankInv l) :
    ((∃ old l2, add_rank l r = AddOutcome.conflict old l2) ↔
      (guild_matches l r = true ∧
        ∃ x ∈ l.rank_order, x.minimum_word_count = r.minimum_word_count))
    ∧ ∀ old l2, add_rank l r = AddOutcome.conflict old l2 →
        l2 = l ∧ old ∈ l.rank_order ∧ old.minimum_word_count = r.minimum_word_count := by
  constructor
  · constructor
    · rintro ⟨old, l2, h⟩
      obtain ⟨-, hmem, hcount, hg⟩ := add_rank_conflict_spec hInv h
      exact ⟨hg, old, hmem, hcount⟩
    · rintro ⟨hg, x, hx, hc⟩
      obtain ⟨old, h⟩ := add_rank_conflict_of_collision hInv hg hx hc
      exact ⟨old, l, h⟩
  · intro old l2 h
    obtain ⟨h1, h2, h3, -⟩ := add_rank_conflict_spec hInv h
    exact ⟨h1, h2, h3⟩

/-- Witness for C2 at a concrete one-rank index and a different-identity,
same-count rank. -/
theorem add_rank_c2_witness :
    ((∃ old l2, add_rank (rankListOfRank (Rank.mk (RankId.mk 1 1) 100))
          (Rank.mk (RankId.mk 1 2) 100) = AddOutcome.conflict old l2) ↔
      (guild_matches (rankListOfRank (Rank.mk (RankId.mk 1 1) 100))
          (Rank.mk (RankId.mk 1 2) 100) = true ∧
        ∃ x ∈ (rankListOfRank (Rank.mk (RankId.mk 1 1) 100)).rank_order,
          x.minimum_word_count = (Rank.mk (RankId.mk 1 2) 100).minimum_word_count))
    ∧ ∀ old l2, add_rank (rankListOfRank (Rank.mk (RankId.mk 1 1) 100))
          (Rank.mk (RankId.mk 1 2) 100) = AddOutcome.conflict old l2 →
        l2 = rankListOfRank (Rank.mk (RankId.mk 1 1) 100)
          ∧ old ∈ (rankListOfRank (Rank.mk (RankId.mk 1 1) 100)).rank_order
          ∧ old.minimum_word_count = (Rank.mk (RankId.mk 1 2) 100).minimum_word_count :=
  add_rank_c2 (rankListOfRank (Rank.mk (RankId.mk 1 1) 100)) (Rank.mk (RankId.mk 1 2) 100)
    (RankInv_ofRank (Rank.mk (RankId.mk 1 1) 100))

/-! ### Replacement behavior of add_rank (claim C3) -/

/-- Claim C3: on an index holding an active rank `old` for an identity, adding
a rank `r` for the same identity with a different, non-colliding count
succeeds; afterwards that identity has exactly one active rank, namely `r`,
and the ordered index holds no entry with the old count. -/
theorem add_rank_c3 (l : RankList) (old r : Rank) (hInv : RankInv l)
    (hold : old ∈ l.rank_set) (hid : old.rank_id = r.rank_id)
    (hcount : r.minimum_word_count ≠ old.minimum_word_count)
    (hfree : ∀ x ∈ l.rank_order, x.minimum_word_count ≠ r.minimum_word_count) :
    ∃ l2, add_rank l r = AddOutcome.ok l2 ∧
      l2.rank_set.filter (fun x => x.rank_id == r.rank_id) = [r] ∧
      (∀ x ∈ l2.rank_order, x.minimum_word_count ≠ old.minimum_word_count) := by
  have hg : guild_matches l r = true := by
    unfold guild_matches
    rw [hInv.guild_set old hold]
    show (old.rank_id.guild_id == r.rank_id.guild_id) = true
    rw [hid]
    simp
  cases h : add_rank l r with
  | ok l2 =>
    obtain ⟨hInv2, hset, hpend, hguild, -⟩ := add_rank_ok_spec hInv h
    refine ⟨l2, rfl, ?_, ?_⟩
    · rw [hset]
      have hr : ((Rank.rank_id r == r.rank_id) = true) := by simp
      show List.filter (fun x => x.rank_id == r.rank_id)
          (r :: l.rank_set.filter (fun x => !(x.rank_id == r.rank_id))) = [r]
      rw [List.filter_cons, if_pos hr]
      have hnil : List.filter (fun x => x.rank_id == r.rank_id)
          (l.rank_set.filter (fun x => !(x.rank_id == r.rank_id))) = [] := by
        apply List.filter_eq_nil.mpr
        intro a ha
        have h4 := (List.mem_filter.mp ha).right
        simp at h4 ⊢
        exact h4
      rw [hnil]
    · intro x hx
      have hxS : x ∈ l2.rank_set := hInv2.perm.mem_iff.mpr hx
      rw [hset] at hxS
      rcases List.mem_cons.mp hxS with rfl | hx2
      · exact hcount
      · have hxm := List.mem_filter.mp hx2
        intro hcc
        have hxold : x = old := by
          by_contra hne2
          exact (List.Pairwise.forall countNe_symm hInv.set_counts hxm.left hold hne2) hcc
        rw [hxold] at hxm
        have h5 : ¬ old.rank_id = r.rank_id := by simpa using hxm.right
        exact h5 hid
  | conflict o l2 =>
    obtain ⟨-, hmem, hc, -⟩ := add_rank_conflict_spec hInv h
    exact absurd hc (hfree o hmem)
  | fatal =>
    rw [add_rank_fatal_guild h] at hg
    exact Bool.noConfusion hg

/-! ### Claim C3 witness -/

/-- Witness for C3: retuning the only rank of a one-rank index from count 100
to count 200. -/
theorem add_rank_c3_witness :
    ∃ l2, add_rank (rankListOfRank (Rank.mk (RankId.mk 1 1) 100)) (Rank.mk (RankId.mk 1 1) 200)
        = AddOutcome.ok l2 ∧
      l2.rank_set.filter (fun x => x.rank_id == (Rank.mk (RankId.mk 1 1) 200).rank_id)
        = [Rank.mk (RankId.mk 1 1) 200] ∧
      (∀ x ∈ l2.rank_order,
        x.minimum_word_count ≠ (Rank.mk (RankId.mk 1 1) 100).minimum_word_count) :=
  add_rank_c3 (rankListOfRank (Rank.mk (RankId.mk 1 1) 100)) (Rank.mk (RankId.mk 1 1) 100)
    (Rank.mk (RankId.mk 1 1) 200) (RankInv_ofRank (Rank.mk (RankId.mk 1 1) 100))
    (by decide) (by decide) (by decide) (by decide)

/-! ### Count-delta application (claim C4) -/

/-- Claim C4 counterexample: at current total `2^31` the `as i32` cast wraps,
so `Relative(0)` yields `0` although the claimed formula `max(t + d, 0)`
gives `2^31`. -/
theorem convert_c4_counterexample :
    convert_to_total (WordCountArgument.Relative 0) 2147483648 = 0 ∧
      Int.toNat (max ((2147483648 : Int) + 0) 0) = 2147483648 := by
  decide

/-- Claim C4 (amended): `Absolute(x)` yields `x` regardless of the current
total — for every total, with no range restriction; for current totals
within i32 range and deltas whose sum stays within i32 range, `Relative(d)`
yields `max(t + d, 0)` clamped at zero; outside that range the `as i32`
reinterpretation wraps and the Relative formula no longer holds. -/
theorem convert_c4 (t : Nat) (d : Int)
    (ht : t ≤ 2147483647) (hd1 : -2147483648 ≤ d)
    (hsum : d + (t : Int) ≤ 2147483647) :
    (∀ (x t2 : Nat), convert_to_total (WordCountArgument.Total x) t2 = x) ∧
    convert_to_total (WordCountArgument.Relative d) t = (max (d + (t : Int)) 0).toNat := by
  refine ⟨fun x t2 => rfl, ?_⟩
  have hu : u32AsI32 t = (t : Int) := by
    unfold u32AsI32
    rw [Nat.mod_eq_of_lt (by omega)]
    rw [if_pos (by omega)]
  have hw : wrapI32 (d + (t : Int)) = d + (t : Int) := by
    unfold wrapI32
    omega
  show (max (wrapI32 (d + u32AsI32 t)) 0).toNat = (max (d + (t : Int)) 0).toNat
  rw [hu, hw]

/-- Witness for C4 at the spec's own example: an absolute value replaces any
total, and applying Relative(-90000) to a total of 100 clamps at zero. -/
theorem convert_c4_witness :
    (∀ (x t2 : Nat), convert_to_total (WordCountArgument.Total x) t2 = x) ∧
    convert_to_total (WordCountArgument.Relative (-90000)) 100
      = (max ((-90000 : Int) + (100 : Int)) 0).toNat :=
  convert_c4 100 (-90000) (by decide) (by decide) (by decide)

/-! ### Count-delta parsing (claim C5) -/

theorem from_str_cons (c : Char) (rest : List Char) :
    from_str (c :: rest) =
      if (c == '+' || c == '-') = true then
        match parseU32 (List.filter (fun x => !(x == ',')) rest) with
        | some n =>
          if n ≤ I32_MAX then
            ParseOutcome.ok (WordCountArgument.Relative
              (if c == '+' then (n : Int) else -(n : Int)))
          else ParseOutcome.fatal
        | none => ParseOutcome.formatError
      else
        match parseU32 (List.filter (fun x => !(x == ',')) (c :: rest)) with
        | some n => ParseOutcome.ok (WordCountArgument.Total n)
        | none => ParseOutcome.formatError := rfl

theorem afterSign_cons (c : Char) (rest : List Char) :
    afterSign (c :: rest) = if (c == '+' || c == '-') = true then rest else c :: rest := rfl

/-- Claim C5 counterexample: on input `"+2147483648"` the comma-stripped
remainder is a valid unsigned integer, yet `from_str` neither returns a value
nor a format error — the `try_into().unwrap()` i32 conversion panics. -/
theorem from_str_c5_counterexample :
    parseU32 (List.filter (fun x => !(x == ',')) ("2147483648".toList)) = some 2147483648 ∧
      from_str ("+2147483648".toList) = ParseOutcome.fatal := by
  decide

/-- Claim C5 (amended): a leading `+`/`-` marks the value relative with that
sign and the remainder — with commas stripped — is parsed as an unsigned
integer; without a sign the comma-stripped input parses as an absolute
total; a format error is returned exactly when that unsigned parse fails
(including on empty input); but a signed value above `i32::MAX` panics
rather than failing with a format error. -/
theorem from_str_c5 :
    from_str ("+1,234".toList) = ParseOutcome.ok (WordCountArgument.Relative 1234) ∧
    from_str ("-50".toList) = ParseOutcome.ok (WordCountArgument.Relative (-50)) ∧
    from_str ("9,876".toList) = ParseOutcome.ok (WordCountArgument.Total 9876) ∧
    ∀ s : List Char,
      (from_str s = ParseOutcome.formatError ↔ parseU32 (strippedRemainder s) = none) ∧
      (∀ n : Nat, signChar s = false → parseU32 (strippedRemainder s) = some n →
        from_str s = ParseOutcome.ok (WordCountArgument.Total n)) ∧
      (∀ n : Nat, signChar s = true → parseU32 (strippedRemainder s) = some n → n ≤ I32_MAX →
        ((s.head? = some '+' → from_str s = ParseOutcome.ok (WordCountArgument.Relative (n : Int))) ∧
         (s.head? = some '-' → from_str s = ParseOutcome.ok (WordCountArgument.Relative (-(n : Int)))))) ∧
      (from_str s = ParseOutcome.fatal ↔
        signChar s = true ∧ ∃ n, parseU32 (strippedRemainder s) = some n ∧ I32_MAX < n) := by
  refine ⟨by decide, by decide, by decide, ?_⟩
  intro s
  cases s with
  | nil =>
    refine ⟨⟨fun _ => rfl, fun _ => rfl⟩, ?_, ?_, ?_⟩
    · intro n _ hp
      simp [strippedRemainder, afterSign, parseU32, digitsToNat?] at hp
    · intro n hsign
      simp [signChar] at hsign
    · constructor
      · intro hf
        simp [from_str, parseU32, digitsToNat?, List.filter] at hf
      · rintro ⟨hsign, -⟩
        simp [signChar] at hsign
  | cons c rest =>
    by_cases hsign : (c == '+' || c == '-') = true
    · have hstrip : strippedRemainder (c :: rest) = List.filter (fun x => !(x == ',')) rest := by
        unfold strippedRemainder
        rw [afterSign_cons, if_pos hsign]
      have hsC : signChar (c :: rest) = true := hsign
      cases hp : parseU32 (List.filter (fun x => !(x == ',')) rest) with
      | none =>
        have hfs := from_str_cons c rest
        rw [if_pos hsign, hp] at hfs
        replace hfs : from_str (c :: rest) = ParseOutcome.formatError := hfs
        refine ⟨?_, ?_, ?_, ?_⟩
        · rw [hfs, hstrip, hp]
          exact ⟨fun _ => rfl, fun _ => rfl⟩
        · intro n hsf _
          rw [hsC] at hsf
          exact Bool.noConfusion hsf
        · intro n _ hpn
          rw [hstrip, hp] at hpn
          exact Option.noConfusion hpn
        · rw [hfs]
          constructor
          · intro hh
            exact ParseOutcome.noConfusion hh
          · rintro ⟨-, n, hpn, -⟩
            rw [hstrip, hp] at hpn
            exact Option.noConfusion hpn
      | some n0 =>
        have hfs := from_str_cons c rest
        rw [if_pos hsign, hp] at hfs
        replace hfs : from_str (c :: rest) =
            (if n0 ≤ I32_MAX then
              ParseOutcome.ok (WordCountArgument.Relative
                (if c == '+' then (n0 : Int) else -(n0 : Int)))
            else ParseOutcome.fatal) := hfs
        by_cases hle : n0 ≤ I32_MAX
        · rw [if_pos hle] at hfs
          refine ⟨?_, ?_, ?_, ?_⟩
          · rw [hfs, hstrip, hp]
            exact ⟨fun hh => ParseOutcome.noConfusion hh, fun hh => Option.noConfusion hh⟩
          · intro n hsf _
            rw [hsC] at hsf
            exact Bool.noConfusion hsf
          · intro n _ hpn hnle
            rw [hstrip, hp] at hpn
            injection hpn with hnn
            subst hnn
            constructor
            · intro hhead
              rw [List.head?_cons] at hhead
              injection hhead with hc
              subst hc
              rw [if_pos (by decide : ((('+' : Char) == '+') = true))] at hfs
              exact hfs
            · intro hhead
              rw [List.head?_cons] at hhead
              injection hhead with hc
              subst hc
              rw [if_neg (by decide : ¬ ((('-' : Char) == '+') = true))] at hfs
              exact hfs
          · rw [hfs]
            constructor
            · intro hh
              exact ParseOutcome.noConfusion hh
            · rintro ⟨-, n, hpn, hgt⟩
              rw [hstrip, hp] at hpn
              injection hpn with hnn
              subst hnn
              omega
        · rw [if_neg hle] at hfs
          refine ⟨?_, ?_, ?_, ?_⟩
          · rw [hfs, hstrip, hp]
            exact ⟨fun hh => ParseOutcome.noConfusion hh, fun hh => Option.noConfusion hh⟩
          · intro n hsf _
            rw [hsC] at hsf
            exact Bool.noConfusion hsf
          · intro n _ hpn hnle
            rw [hstrip, hp] at hpn
            injection hpn with hnn
            subst hnn
            exact absurd hnle hle
          · rw [hfs]
            refine ⟨fun _ => ⟨hsC, n0, by rw [hstrip, hp], by omega⟩, fun _ => rfl⟩
    · have hstrip : strippedRemainder (c :: rest)
          = List.filter (fun x => !(x == ',')) (c :: rest) := by
        unfold strippedRemainder
        rw [afterSign_cons, if_neg hsign]
      have hsC : signChar (c :: rest) = false := by
        unfold signChar
        simpa using hsign
      cases hp : parseU32 (List.filter (fun x => !(x == ',')) (c :: rest)) with
      | none =>
        have hfs := from_str_cons c rest
        rw [if_neg hsign, hp] at hfs
        replace hfs : from_str (c :: rest) = ParseOutcome.formatError := hfs
        refine ⟨?_, ?_, ?_, ?_⟩
        · rw [hfs, hstrip, hp]
          exact ⟨fun _ => rfl, fun _ => rfl⟩
        · intro n _ hpn
          rw [hstrip, hp] at hpn
          exact Option.noConfusion hpn
        · intro n hsf
          rw [hsC] at hsf
          exact Bool.noConfusion hsf
        · rw [hfs]
          constructor
          · intro hh
            exact ParseOutcome.noConfusion hh
          · rintro ⟨hsf, -⟩
            rw [hsC] at hsf
            exact Bool.noConfusion hsf
      | some n0 =>
        have hfs := from_str_cons c rest
        rw [if_neg hsign, hp] at hfs
        replace hfs : from_str (c :: rest) = ParseOutcome.ok (WordCountArgument.Total n0) := hfs
        refine ⟨?_, ?_, ?_, ?_⟩
        · rw [hfs, hstrip, hp]
          exact ⟨fun hh => ParseOutcome.noConfusion hh, fun hh => Option.noConfusion hh⟩
        · intro n _ hpn
          rw [hstrip, hp] at hpn
          injection hpn with hnn
          subst hnn
          exact hfs
        · intro n hsf
          rw [hsC] at hsf
          exact Bool.noConfusion hsf
        · rw [hfs]
          constructor
          · intro hh
            exact ParseOutcome.noConfusion hh
          · rintro ⟨hsf, -⟩
            rw [hsC] at hsf
            exact Bool.noConfusion hsf

/-! ### The effect of save on the store (claims C6 and C9) -/

theorem lookup_fold_upserts (ranks : List Rank) :
    ∀ (store : Store) (key : RankId), ranks.Pairwise idNe →
      lookupRow ((ranks.map (fun r => DbOp.upsertOp r.rank_id r.minimum_word_count)).foldl
          applyDbOp store) key
        = match ranks.find? (fun r => r.rank_id == key) with
          | some r => some r.minimum_word_count
          | none => lookupRow store key := by
  induction ranks with
  | nil =>
    intro store key _
    rfl
  | cons r rest ih =>
    intro store key hids
    rcases List.pairwise_cons.mp hids with ⟨hr, hrest⟩
    simp only [List.map_cons, List.foldl_cons]
    rw [ih _ key hrest]
    by_cases hk : (r.rank_id == key) = true
    · have hkk : r.rank_id = key := by simpa using hk
      have hfind : List.find? (fun x => x.rank_id == key) (r :: rest) = some r :=
        List.find?_cons_of_pos _ hk
      rw [hfind]
      have hnone : rest.find? (fun x => x.rank_id == key) = none := by
        rw [List.find?_eq_none]
        intro x hx
        have hne : r.rank_id ≠ x.rank_id := hr x hx
        simp only [beq_iff_eq]
        intro hxk
        exact hne (by rw [hkk, hxk])
      rw [hnone]
      show lookupRow (upsertRow store r.rank_id r.minimum_word_count) key
        = some r.minimum_word_count
      unfold lookupRow upsertRow
      rw [if_pos hkk.symm]
    · have hfind : List.find? (fun x => x.rank_id == key) (r :: rest)
          = List.find? (fun x => x.rank_id == key) rest :=
        List.find?_cons_of_neg _ (by simpa using hk)
      rw [hfind]
      cases hf : rest.find? (fun x => x.rank_id == key) with
      | some r2 => rfl
      | none =>
        show lookupRow (upsertRow store r.rank_id r.minimum_word_count) key = lookupRow store key
        unfold lookupRow upsertRow
        rw [if_neg (fun hh => hk (by rw [hh]; simp))]

theorem lookup_fold_deletes (pend : List Rank) :
    ∀ (store : Store) (key : RankId),
      lookupRow ((pend.map (fun r => DbOp.deleteOp r.rank_id)).foldl applyDbOp store) key
        = if pend.any (fun r => r.rank_id == key) = true then none else lookupRow store key := by
  induction pend with
  | nil =>
    intro store key
    simp
  | cons r rest ih =>
    intro store key
    simp only [List.map_cons, List.foldl_cons]
    rw [ih]
    by_cases hk : (r.rank_id == key) = true
    · have hany : ((r :: rest).any (fun r2 => r2.rank_id == key)) = true := by
        simp [List.any_cons, hk]
      rw [if_pos hany]
      by_cases hrest : rest.any (fun r2 => r2.rank_id == key) = true
      · rw [if_pos hrest]
      · rw [if_neg hrest]
        show lookupRow (deleteRow store r.rank_id) key = none
        unfold lookupRow deleteRow
        rw [if_pos (by simpa using hk : r.rank_id = key).symm]
    · have hany : ((r :: rest).any (fun r2 => r2.rank_id == key))
          = rest.any (fun r2 => r2.rank_id == key) := by
        simp [List.any_cons, hk]
      rw [hany]
      by_cases hrest : rest.any (fun r2 => r2.rank_id == key) = true
      · rw [if_pos hrest, if_pos hrest]
      · rw [if_neg hrest, if_neg hrest]
        show lookupRow (deleteRow store r.rank_id) key = lookupRow store key
        unfold lookupRow deleteRow
        rw [if_neg (fun hh => hk (by rw [hh]; simp))]

theorem lookupRow_save {l : RankList} (hInv : RankInv l) (store : Store) (key : RankId) :
    lookupRow (save l store) key =
      if l.pending_removals.any (fun r => r.rank_id == key) = true then none
      else
        match l.rank_order.find? (fun r => r.rank_id == key) with
        | some r => some r.minimum_word_count
        | none => lookupRow store key := by
  unfold save save_ops
  rw [List.foldl_append]
  rw [lookup_fold_deletes]
  by_cases hpend : l.pending_removals.any (fun r => r.rank_id == key) = true
  · rw [if_pos hpend, if_pos hpend]
  · rw [if_neg hpend, if_neg hpend]
    exact lookup_fold_upserts l.rank_order store key hInv.order_ids

/-! ### Reconciliation of save with the store (claim C6) -/

/-- Claim C6: a fully successful save issues every upsert before every
delete, and leaves the store holding one row per active rank at that rank's
count, no row for any pending-removal identity, and every other row
unchanged. -/
theorem save_c6 (l : RankList) (store : Store) (hInv : RankInv l) :
    (∃ ups dels, save_ops l = ups ++ dels ∧ (∀ op ∈ ups, op.isDelete = false) ∧
        (∀ op ∈ dels, op.isDelete = true)) ∧
    (∀ r ∈ l.rank_order, lookupRow (save l store) r.rank_id = some r.minimum_word_count) ∧
    (∀ p ∈ l.pending_removals, lookupRow (save l store) p.rank_id = none) ∧
    (∀ key : RankId, (∀ r ∈ l.rank_order, r.rank_id ≠ key) →
      (∀ p ∈ l.pending_removals, p.rank_id ≠ key) →
      lookupRow (save l store) key = lookupRow store key) := by
  refine ⟨⟨_, _, rfl, ?_, ?_⟩, ?_, ?_, ?_⟩
  · intro op hop
    obtain ⟨r, -, rfl⟩ := List.mem_map.mp hop
    rfl
  · intro op hop
    obtain ⟨r, -, rfl⟩ := List.mem_map.mp hop
    rfl
  · intro r hr
    rw [lookupRow_save hInv]
    have hrS : r ∈ l.rank_set := hInv.perm.mem_iff.mpr hr
    have hnp : ¬ l.pending_removals.any (fun p => p.rank_id == r.rank_id) = true := by
      intro hh
      obtain ⟨p, hp, hpe⟩ := List.any_eq_true.mp hh
      exact hInv.disj r hrS p hp ((by simpa using hpe : p.rank_id = r.rank_id).symm)
    rw [if_neg hnp]
    have hfind : l.rank_order.find? (fun x => x.rank_id == r.rank_id) = some r := by
      cases hf : l.rank_order.find? (fun x => x.rank_id == r.rank_id) with
      | none =>
        have := List.find?_eq_none.mp hf r hr
        simp at this
      | some x =>
        have hxmem := List.mem_of_find?_eq_some hf
        have hxid : x.rank_id = r.rank_id := by simpa using List.find?_some hf
        rw [unique_of_pairwise_idNe hInv.order_ids hxmem hr hxid]
    rw [hfind]
  · intro p hp
    rw [lookupRow_save hInv]
    rw [if_pos (List.any_eq_true.mpr ⟨p, hp, by simp⟩)]
  · intro key hnr hnp
    rw [lookupRow_save hInv]
    have h1 : ¬ l.pending_removals.any (fun x => x.rank_id == key) = true := by
      intro hh
      obtain ⟨p, hp, hpe⟩ := List.any_eq_true.mp hh
      exact hnp p hp (by simpa using hpe)
    rw [if_neg h1]
    have h2 : l.rank_order.find? (fun x => x.rank_id == key) = none := by
      rw [List.find?_eq_none]
      intro x hx
      simpa using hnr x hx
    rw [h2]

/-- Witness for C6 at an index with one active rank and one pending removal,
against a store holding an unrelated row. -/
theorem save_c6_witness :
    (∃ ups dels, save_ops (RankList.mk (some 1) [Rank.mk (RankId.mk 1 1) 0]
          [Rank.mk (RankId.mk 1 1) 0] [Rank.mk (RankId.mk 1 2) 50]) = ups ++ dels ∧
        (∀ op ∈ ups, op.isDelete = false) ∧ (∀ op ∈ dels, op.isDelete = true)) ∧
    (∀ r ∈ (RankList.mk (some 1) [Rank.mk (RankId.mk 1 1) 0]
        [Rank.mk (RankId.mk 1 1) 0] [Rank.mk (RankId.mk 1 2) 50]).rank_order,
      lookupRow (save (RankList.mk (some 1) [Rank.mk (RankId.mk 1 1) 0]
          [Rank.mk (RankId.mk 1 1) 0] [Rank.mk (RankId.mk 1 2) 50])
          (fun k => if k = RankId.mk 9 9 then some 7 else none)) r.rank_id
        = some r.minimum_word_count) ∧
    (∀ p ∈ (RankList.mk (some 1) [Rank.mk (RankId.mk 1 1) 0]
        [Rank.mk (RankId.mk 1 1) 0] [Rank.mk (RankId.mk 1 2) 50]).pending_removals,
      lookupRow (save (RankList.mk (some 1) [Rank.mk (RankId.mk 1 1) 0]
          [Rank.mk (RankId.mk 1 1) 0] [Rank.mk (RankId.mk 1 2) 50])
          (fun k => if k = RankId.mk 9 9 then some 7 else none)) p.rank_id = none) ∧
    (∀ key : RankId,
      (∀ r ∈ (RankList.mk (some 1) [Rank.mk (RankId.mk 1 1) 0]
          [Rank.mk (RankId.mk 1 1) 0] [Rank.mk (RankId.mk 1 2) 50]).rank_order,
        r.rank_id ≠ key) →
      (∀ p ∈ (RankList.mk (some 1) [Rank.mk (RankId.mk 1 1) 0]
          [Rank.mk (RankId.mk 1 1) 0] [Rank.mk (RankId.mk 1 2) 50]).pending_removals,
        p.rank_id ≠ key) →
      lookupRow (save (RankList.mk (some 1) [Rank.mk (RankId.mk 1 1) 0]
          [Rank.mk (RankId.mk 1 1) 0] [Rank.mk (RankId.mk 1 2) 50])
          (fun k => if k = RankId.mk 9 9 then some 7 else none)) key
        = lookupRow (fun k => if k = RankId.mk 9 9 then some 7 else none) key) :=
  save_c6 (RankList.mk (some 1) [Rank.mk (RankId.mk 1 1) 0]
      [Rank.mk (RankId.mk 1 1) 0] [Rank.mk (RankId.mk 1 2) 50])
    (fun k => if k = RankId.mk 9 9 then some 7 else none)
    ⟨by decide, by decide, by decide, by decide, by decide, by decide, by decide⟩

/-! ### Round-trip behavior of save (claim C9) -/

/-- Claim C9 counterexample: `save` consumes the index without touching the
pending-removal set, so the statements of a repeated save of the same index
value still include a delete — the pending set is not cleared to empty by a
successful save. -/
theorem save_c9_counterexample :
    ((save_ops (remove_rank (rankListOfRank (Rank.mk (RankId.mk 1 1) 100))
        (Rank.mk (RankId.mk 1 1) 100))).any DbOp.isDelete = true) ∧
    (remove_rank (rankListOfRank (Rank.mk (RankId.mk 1 1) 100))
        (Rank.mk (RankId.mk 1 1) 100)).pending_removals ≠ [] := by
  decide

/-- Claim C9 (amended): `save` consumes the index and does not mutate the
pending-removal set; a second save of the same index value re-issues its
deletes as well as its upserts, but both are idempotent, so the second save
leaves the stored state exactly as the first did (round-trip stability). -/
theorem save_c9 (l : RankList) (store : Store) (key : RankId) (hInv : RankInv l) :
    lookupRow (save l (save l store)) key = lookupRow (save l store) key := by
  rw [lookupRow_save hInv (save l store) key]
  by_cases hpend : l.pending_removals.any (fun r => r.rank_id == key) = true
  · rw [if_pos hpend, lookupRow_save hInv store key, if_pos hpend]
  · rw [if_neg hpend]
    cases hf : l.rank_order.find? (fun r => r.rank_id == key) with
    | some r =>
      rw [lookupRow_save hInv store key, if_neg hpend, hf]
    | none =>
      rw [lookupRow_save hInv store key, if_neg hpend, hf]

/-- Witness for C9 at an index with a pending removal, looking the removed
key up after one save and after two. -/
theorem save_c9_witness :
    lookupRow (save (RankList.mk (some 1) [Rank.mk (RankId.mk 1 1) 0]
          [Rank.mk (RankId.mk 1 1) 0] [Rank.mk (RankId.mk 1 2) 50])
        (save (RankList.mk (some 1) [Rank.mk (RankId.mk 1 1) 0]
            [Rank.mk (RankId.mk 1 1) 0] [Rank.mk (RankId.mk 1 2) 50])
          (fun k => if k = RankId.mk 9 9 then some 7 else none))) (RankId.mk 1 2)
      = lookupRow (save (RankList.mk (some 1) [Rank.mk (RankId.mk 1 1) 0]
            [Rank.mk (RankId.mk 1 1) 0] [Rank.mk (RankId.mk 1 2) 50])
          (fun k => if k = RankId.mk 9 9 then some 7 else none)) (RankId.mk 1 2) :=
  save_c9 (RankList.mk (some 1) [Rank.mk (RankId.mk 1 1) 0]
      [Rank.mk (RankId.mk 1 1) 0] [Rank.mk (RankId.mk 1 2) 50])
    (fun k => if k = RankId.mk 9 9 then some 7 else none) (RankId.mk 1 2)
    ⟨by decide, by decide, by decide, by decide, by decide, by decide, by decide⟩

/-! ### Disjointness invariant (claim C7) -/

/-- Claim C7: on every rank list reachable through the constructors and the
add/remove operations, the active identity index and the pending-removal set
are disjoint — no identity is in both at any observable instant. -/
theorem reachable_disjoint_c7 (l : RankList) (h : Reachable l) : pendingDisjoint l :=
  (Reachable_inv h).disj

/-- Witness for C7 on the state reached by constructing a one-rank list and
removing its rank. -/
theorem reachable_disjoint_c7_witness :
    pendingDisjoint (remove_rank (rankListOfRank (Rank.mk (RankId.mk 1 1) 100))
      (Rank.mk (RankId.mk 1 1) 100)) :=
  reachable_disjoint_c7 _
    (Reachable.remove _ (Rank.mk (RankId.mk 1 1) 100)
      (Reachable.ofRank (Rank.mk (RankId.mk 1 1) 100)))

/-! ### Cancellation law (claim C8) -/

theorem checked_ok_sets {m l2 : RankList} {r : Rank}
    (h : add_rank_checked m r = AddOutcome.ok l2) :
    l2.rank_set = r :: m.rank_set.filter (fun x => !(x.rank_id == r.rank_id)) ∧
    l2.pending_removals = m.pending_removals.filter (fun x => !(x.rank_id == r.rank_id)) := by
  unfold add_rank_checked at h
  cases hget : btreeGet m.rank_order r with
  | some o =>
    rw [hget] at h
    exact AddOutcome.noConfusion h
  | none =>
    rw [hget] at h
    injection h with h1
    constructor
    · rw [← h1, unpend_rank_set]
      show hashReplace (add_rank_replace_old m r).rank_set r = _
      rw [replace_old_rank_set]
      rfl
    · rw [← h1, unpend_pending]
      show ((add_rank_replace_old m r).pending_removals).filter
        (fun x => !(x.rank_id == r.rank_id)) = _
      rw [replace_old_pending]

theorem add_rank_ok_sets {m l2 : RankList} {r : Rank} (h : add_rank m r = AddOutcome.ok l2) :
    l2.rank_set = r :: m.rank_set.filter (fun x => !(x.rank_id == r.rank_id)) ∧
    l2.pending_removals = m.pending_removals.filter (fun x => !(x.rank_id == r.rank_id)) := by
  unfold add_rank at h
  cases hg : m.guild_id with
  | none =>
    rw [hg] at h
    replace h : add_rank_checked { m with guild_id := some r.rank_id.guild_id } r
        = AddOutcome.ok l2 := h
    obtain ⟨h1, h2⟩ := checked_ok_sets h
    exact ⟨h1, h2⟩
  | some g =>
    rw [hg] at h
    replace h : (if (g == r.rank_id.guild_id) = true then add_rank_checked m r
        else AddOutcome.fatal) = AddOutcome.ok l2 := h
    by_cases hgr : (g == r.rank_id.guild_id) = true
    · rw [if_pos hgr] at h
      exact checked_ok_sets h
    · rw [if_neg hgr] at h
      exact AddOutcome.noConfusion h

theorem filter_id_cons_self (r : Rank) (M : List Rank) :
    (r :: M.filter (fun x => !(x.rank_id == r.rank_id))).filter
      (fun x => x.rank_id == r.rank_id) = [r] := by
  rw [List.filter_cons, if_pos (by simp : ((r.rank_id == r.rank_id) = true))]
  have hnil : (M.filter (fun x => !(x.rank_id == r.rank_id))).filter
      (fun x => x.rank_id == r.rank_id) = [] := by
    apply List.filter_eq_nil.mpr
    intro a ha
    have h4 := (List.mem_filter.mp ha).right
    simp at h4 ⊢
    exact h4
  rw [hnil]

/-- Claim C8: on an index with an active rank for an identity, removing that
identity and then successfully re-adding a rank for it (before any save)
leaves zero pending removals for the identity and exactly one active entry
for it. -/
theorem cancel_c8 (l l2 : RankList) (old r : Rank)
    (hold : old ∈ l.rank_set) (hid : old.rank_id = r.rank_id)
    (hok : add_rank (remove_rank l old) r = AddOutcome.ok l2) :
    (∀ p ∈ l2.pending_removals, p.rank_id ≠ r.rank_id) ∧
    l2.rank_set.filter (fun x => x.rank_id == r.rank_id) = [r] := by
  obtain ⟨hset2, hpend2⟩ := add_rank_ok_sets hok
  constructor
  · rw [hpend2]
    intro p hp
    have h4 := (List.mem_filter.mp hp).right
    simpa using h4
  · rw [hset2]
    exact filter_id_cons_self r _

/-- Witness for C8: remove the only rank of a one-rank index and re-add it. -/
theorem cancel_c8_witness :
    (∀ p ∈ (RankList.mk (some 1) [Rank.mk (RankId.mk 1 1) 100]
        [Rank.mk (RankId.mk 1 1) 100] []).pending_removals,
      p.rank_id ≠ (Rank.mk (RankId.mk 1 1) 100).rank_id) ∧
    (RankList.mk (some 1) [Rank.mk (RankId.mk 1 1) 100]
        [Rank.mk (RankId.mk 1 1) 100] []).rank_set.filter
      (fun x => x.rank_id == (Rank.mk (RankId.mk 1 1) 100).rank_id)
      = [Rank.mk (RankId.mk 1 1) 100] :=
  cancel_c8 (rankListOfRank (Rank.mk (RankId.mk 1 1) 100))
    (RankList.mk (some 1) [Rank.mk (RankId.mk 1 1) 100] [Rank.mk (RankId.mk 1 1) 100] [])
    (Rank.mk (RankId.mk 1 1) 100) (Rank.mk (RankId.mk 1 1) 100)
    (by decide) (by decide) (by decide)

/-! ### Error propagation of add_ranks (claim C10) -/

/-- Claim C10 evaluation at the failing input: `add_ranks` on a batch whose
second rank collides with the first returns plain success with the second
rank dropped, although `add_rank` on that element reports a conflict — the
error is silently discarded by the loop. -/
theorem add_ranks_c10 :
    add_ranks emptyRankList [Rank.mk (RankId.mk 1 1) 100, Rank.mk (RankId.mk 1 2) 100]
      = some (rankListOfRank (Rank.mk (RankId.mk 1 1) 100)) ∧
    add_rank (rankListOfRank (Rank.mk (RankId.mk 1 1) 100)) (Rank.mk (RankId.mk 1 2) 100)
      = AddOutcome.conflict (Rank.mk (RankId.mk 1 1) 100)
          (rankListOfRank (Rank.mk (RankId.mk 1 1) 100)) := by
  decide
